import Mathlib

/- Verification of the candidate-name generation subsystem (src/enum/brute.go):
the BruteManager, AlterationsManager and GuessManager producers.  External
collaborators (configuration, DNS evidence predicates, the alteration-rule
engine, the Markov model sampler, string sanitization) are modelled as
abstract parameters bundled in the `Enumeration` structure; the producer
logic itself is translated directly from the Go source. -/

namespace Amass

/-- requests.DNSRequest: the unit flowing through the pipeline.  `Records`
holds opaque resolved-DNS payload entries; only emptiness of the slice is
inspected by this subsystem. -/
structure DNSRequest where
  Name : String
  Domain : String
  Tag : String
  Source : String
  Records : List String
deriving DecidableEq

/-- Modelled from the spec: the provenance tag `requests.BRUTE` (a member of a
small closed set of distinct constants; the `requests` package is not in src). -/
def BRUTE : String := "brute"

/-- Modelled from the spec: the provenance tag `requests.ALT`. -/
def ALT : String := "alt"

/-- Modelled from the spec: the provenance tag `requests.GUESS`. -/
def GUESS : String := "guess"

/-- Modelled from the spec: the mutable alteration-engine state `alts.State`
(external collaborator).  The code in src constructs it via `alts.NewState`
and sets the two tunable threshold fields. -/
structure AltsState where
  MinForWordFlip : Int
  EditDistance : Int
  Wordlist : List String
deriving DecidableEq

/-- The configuration slice consumed by the producers (`Config` collaborator):
feature toggles, wordlists, thresholds, and the scope predicates. -/
structure Config where
  BruteForcing : Bool
  Alterations : Bool
  Wordlist : List String
  AltWordlist : List String
  MinForWordFlip : Int
  EditDistance : Int
  FlipNumbers : Bool
  AddNumbers : Bool
  FlipWords : Bool
  AddWords : Bool
  IsDomainInScope : String → Bool
  WhichDomain : String → String

/-- The `Enumeration` collaborator bundle: the configuration plus the external
functions the producers delegate to.  `SanitizeDNSRequest`, the DNS-evidence
predicates, `alts.NewState`, the individual alteration rules and the Markov
sampling oracle are all code outside src, so they are abstract here; the
Markov sampler is modelled as a deterministic oracle indexed by the number of
`GenerateNames` calls made so far. -/
structure Enumeration where
  Config : Config
  hasCNAMERecord : DNSRequest → Bool
  hasARecords : DNSRequest → Bool
  SanitizeDNSRequest : DNSRequest → DNSRequest
  altsNewState : List String → AltsState
  altsFlipNumbers : AltsState → String → List String
  altsAppendNumbers : AltsState → String → List String
  altsFlipWords : AltsState → String → List String
  altsAddSuffixWord : AltsState → String → List String
  altsAddPrefixWord : AltsState → String → List String
  altsFuzzyLabelSearches : AltsState → String → List String
  markovOracle : Nat → Nat → List String

/-- State of the brute-forcing producer (`BruteManager`): the FIFO queue of
accepted base requests, the duplicate filter (the set of names it has
recorded), and the resumable cursor `(curReq, wordlistIdx)`. -/
structure BruteManager where
  queue : List DNSRequest
  filter : List String
  wordlistIdx : Nat
  curReq : Option DNSRequest
deriving DecidableEq

/-- NewBruteManager: fresh queue, fresh filter, zero-valued cursor. -/
def NewBruteManager : BruteManager :=
  { queue := [], filter := [], wordlistIdx := 0, curReq := none }

/-- Outcome of one `InputName` call, mirroring the exits of the Go control
flow (used to state filter-provenance properties). -/
inductive InputResult where
  | droppedMalformed
  | droppedScope
  | droppedDisabled
  | droppedDuplicate
  | droppedRecords
  | enqueued
deriving DecidableEq

/-- BruteManager.InputName, instrumented with which exit was taken.
`stringfilter.Duplicate` both tests and records the name, so the filter grows
on the not-previously-seen path even when the DNS-evidence check then drops
the request. -/
def BruteManager.inputNameR (e : Enumeration) (r : BruteManager)
    (req : Option DNSRequest) : InputResult × BruteManager :=
  match req with
  | none => (.droppedMalformed, r)
  | some req0 =>
    if req0.Name = "" ∨ req0.Domain = "" then (.droppedMalformed, r)
    else
      let req := e.SanitizeDNSRequest req0
      if ¬ e.Config.IsDomainInScope req.Name then (.droppedScope, r)
      else if ¬ e.Config.BruteForcing then (.droppedDisabled, r)
      else if req.Name ∈ r.filter then (.droppedDuplicate, r)
      else
        let r1 := { r with filter := req.Name :: r.filter }
        if 0 < req.Records.length ∧ (e.hasCNAMERecord req ∨ ¬ e.hasARecords req)
        then (.droppedRecords, r1)
        else (.enqueued, { r1 with queue := r1.queue ++ [req] })

/-- BruteManager.InputName: the state transition alone. -/
def BruteManager.InputName (e : Enumeration) (r : BruteManager)
    (req : Option DNSRequest) : BruteManager :=
  (r.inputNameR e req).2

/-- The candidate emitted for one wordlist entry and one base request:
`word + "." + curReq.Name`, scoped under the base's domain. -/
def brutePair (word : String) (base : DNSRequest) : DNSRequest :=
  { Name := word ++ "." ++ base.Name, Domain := base.Domain,
    Tag := BRUTE, Source := "Brute Forcing", Records := [] }

/-- The inner loop of BruteManager.OutputNames for the current base request:
walks the wordlist from `idx`, skipping empty words, emitting until `count`
reaches `num`.  Returns the emitted requests, the final count, and `some idx2`
if it stopped on the budget (cursor position kept) or `none` if the wordlist
was exhausted first. -/
def bruteWords (wl : List String) (num : Nat) (base : DNSRequest) :
    Nat → Nat → List DNSRequest × Nat × Option Nat
  | idx, count =>
    if num ≤ count then ([], count, some idx)
    else if h : idx < wl.length then
      let word := wl[idx]
      if word = "" then bruteWords wl num base (idx + 1) count
      else
        let r := bruteWords wl num base (idx + 1) (count + 1)
        (brutePair word base :: r.1, r.2)
    else ([], count, none)
termination_by idx _ => wl.length - idx

/-- The outer loop of BruteManager.OutputNames: pulls the next base request
from the queue when the cursor is empty, runs the wordlist walk, and resets
the wordlist index to 0 when the wordlist is exhausted for the current base.
Returns the emitted requests and the final (queue, curReq, wordlistIdx). -/
def bruteQueue (wl : List String) (num : Nat) :
    List DNSRequest → Option DNSRequest → Nat → Nat →
    List DNSRequest × List DNSRequest × Option DNSRequest × Nat
  | queue, some req, idx, count =>
    match bruteWords wl num req idx count with
    | (ems, _, some idx2) => (ems, queue, some req, idx2)
    | (ems, count2, none) =>
      let r := bruteQueue wl num queue none 0 count2
      (ems ++ r.1, r.2)
  | [], none, idx, _ => ([], [], none, idx)
  | q :: qs, none, idx, count => bruteQueue wl num qs (some q) idx count
termination_by queue cur _ _ => 2 * queue.length + (if cur.isSome then 1 else 0)

/-- BruteManager.OutputNames: returns immediately when brute forcing is
disabled, otherwise resumes the cross-product traversal at the cursor. -/
def BruteManager.OutputNames (e : Enumeration) (r : BruteManager) (num : Nat) :
    List DNSRequest × BruteManager :=
  if ¬ e.Config.BruteForcing then ([], r)
  else
    let res := bruteQueue e.Config.Wordlist num r.queue r.curReq r.wordlistIdx 0
    (res.1, { r with queue := res.2.1, curReq := res.2.2.1, wordlistIdx := res.2.2.2 })

/-- BruteManager.Stop: clears the cursor and replaces queue and filter with
fresh instances. -/
def BruteManager.Stop (_ : BruteManager) : BruteManager :=
  { queue := [], filter := [], wordlistIdx := 0, curReq := none }

/-- Insertion into a deduplicating name collection (`stringset` collaborator,
modelled with a deterministic insertion order; the spec declares the
iteration order of these sets irrelevant). -/
def insertName (s : List String) (x : String) : List String :=
  if x ∈ s then s else s ++ [x]

/-- stringset.InsertMany: bulk insertion. -/
def insertMany (s : List String) (xs : List String) : List String :=
  xs.foldl insertName s

/-- Modelled from the spec: the semantics of Go's `strings.Split(s, ".")`
(standard-library collaborator) on the character list of `s` — split at every
dot, keeping empty fragments, `[""]` for the empty string. -/
def splitDot : List Char → List (List Char)
  | [] => [[]]
  | c :: rest =>
    let r := splitDot rest
    if c = '.' then [] :: r
    else
      match r with
      | [] => [[c]]
      | x :: xs => (c :: x) :: xs

/-- Number of labels produced by `strings.Split(s, ".")`. -/
def labelCount (s : String) : Nat := (splitDot s.data).length

/-- State of the alterations producer (`AlterationsManager`): pending-input
queue, ready-output queue, and the mutation-engine state. -/
structure AlterationsManager where
  inQueue : List DNSRequest
  outQueue : List DNSRequest
  altState : AltsState
deriving DecidableEq

/-- NewAlterationsManager: fresh queues, engine from `alts.NewState` with the
two threshold fields then overwritten from the configuration. -/
def NewAlterationsManager (e : Enumeration) : AlterationsManager :=
  { inQueue := [], outQueue := [],
    altState := { e.altsNewState e.Config.AltWordlist with
                    MinForWordFlip := e.Config.MinForWordFlip,
                    EditDistance := e.Config.EditDistance } }

/-- AlterationsManager.InputName: drops malformed, out-of-scope or
feature-disabled requests, and names whose label depth does not exceed the
domain's label depth; otherwise appends to the pending-input queue. -/
def AlterationsManager.InputName (e : Enumeration) (r : AlterationsManager)
    (req : Option DNSRequest) : AlterationsManager :=
  match req with
  | none => r
  | some req0 =>
    if req0.Name = "" ∨ req0.Domain = "" then r
    else
      let req := e.SanitizeDNSRequest req0
      if ¬ e.Config.IsDomainInScope req.Name then r
      else if ¬ e.Config.Alterations then r
      else if labelCount req.Name ≤ labelCount req.Domain then r
      else { r with inQueue := r.inQueue ++ [req] }

/-- The deduplicated variant set built by AlterationsManager.generateAlts for
one input name: the union of the outputs of every individually enabled rule. -/
def generateAltsNames (e : Enumeration) (st : AltsState) (name : String) :
    List String :=
  let names : List String := []
  let names := if e.Config.FlipNumbers
    then insertMany names (e.altsFlipNumbers st name) else names
  let names := if e.Config.AddNumbers
    then insertMany names (e.altsAppendNumbers st name) else names
  let names := if e.Config.FlipWords
    then insertMany names (e.altsFlipWords st name) else names
  let names := if e.Config.AddWords
    then insertMany (insertMany names (e.altsAddSuffixWord st name))
                    (e.altsAddPrefixWord st name)
    else names
  if 0 < e.Config.EditDistance
  then insertMany names (e.altsFuzzyLabelSearches st name) else names

/-- The in-scope variants of one input request, in the order they are queued. -/
def scopedAlts (e : Enumeration) (st : AltsState) (name : String) : List String :=
  (generateAltsNames e st name).filter (fun n => e.Config.IsDomainInScope n)

/-- The output request queued for one surviving variant name. -/
def altPair (name : String) (req : DNSRequest) : DNSRequest :=
  { Name := name, Domain := req.Domain, Tag := ALT,
    Source := "Alterations", Records := [] }

/-- AlterationsManager.generateAlts: pulls one pending input (0 if the queue
is empty), expands it through the enabled rules, filters by scope, appends
the survivors to the ready-output queue and returns how many were appended. -/
def AlterationsManager.generateAlts (e : Enumeration) (r : AlterationsManager) :
    Nat × AlterationsManager :=
  match r.inQueue with
  | [] => (0, r)
  | req :: rest =>
    let survivors := scopedAlts e r.altState req.Name
    (survivors.length,
     { r with inQueue := rest,
              outQueue := r.outQueue ++ survivors.map (fun n => altPair n req) })

/-- The refill loop of AlterationsManager.OutputNames: while fewer than `num`
items are buffered, run one expansion step; a zero-yield step breaks the loop
(with that step's state changes kept). -/
def altRefill (e : Enumeration) (num : Nat) :
    List DNSRequest → List DNSRequest → AltsState →
    List DNSRequest × List DNSRequest
  | inQ, outQ, st =>
    if num ≤ outQ.length then (inQ, outQ)
    else
      match inQ with
      | [] => ([], outQ)
      | req :: rest =>
        let survivors := scopedAlts e st req.Name
        let outQ2 := outQ ++ survivors.map (fun n => altPair n req)
        if survivors.length = 0 then (rest, outQ2)
        else altRefill e num rest outQ2 st

/-- AlterationsManager.OutputNames: empty when alterations are disabled;
otherwise refill the ready-output queue and drain up to `num` items. -/
def AlterationsManager.OutputNames (e : Enumeration) (r : AlterationsManager)
    (num : Nat) : List DNSRequest × AlterationsManager :=
  if ¬ e.Config.Alterations then ([], r)
  else
    let res := altRefill e num r.inQueue r.outQueue r.altState
    (res.2.take num,
     { r with inQueue := res.1, outQueue := res.2.drop num })

/-- AlterationsManager.Stop: fresh queues and an engine rebuilt by
`alts.NewState` from the configured wordlist (the threshold fields are not
re-applied). -/
def AlterationsManager.Stop (e : Enumeration) (_ : AlterationsManager) :
    AlterationsManager :=
  { inQueue := [], outQueue := [],
    altState := e.altsNewState e.Config.AltWordlist }

/-- Modelled from the spec: the statistical sequence model `alts.MarkovModel`
(external collaborator exposing Train, TotalTrainings and GenerateNames).
`Train` increments the monotonic training-event counter; `GenerateNames` is a
deterministic oracle indexed by how many sampling calls were made before. -/
structure MarkovModel where
  TotalTrainings : Nat
  GenerateNamesO : Nat → Nat → List String
  calls : Nat

/-- Modelled from the spec: `alts.NewMarkovModel(ngramSize)` — a fresh model
with zero training events; its sampling oracle comes from the collaborator
bundle. -/
def NewMarkovModel (e : Enumeration) (_ngramSize : Nat) : MarkovModel :=
  { TotalTrainings := 0, GenerateNamesO := e.markovOracle, calls := 0 }

/-- Modelled from the spec: `MarkovModel.Train` records one training event. -/
def MarkovModel.Train (m : MarkovModel) : MarkovModel :=
  { m with TotalTrainings := m.TotalTrainings + 1 }

/-- One `GenerateNames(n)` call on the oracle model: the produced names and
the model with its call counter advanced. -/
def MarkovModel.GenerateNames (m : MarkovModel) (n : Nat) :
    List String × MarkovModel :=
  (m.GenerateNamesO m.calls n, { m with calls := m.calls + 1 })

/-- State of the guessing producer (`GuessManager`): the model and the
training-count checkpoint taken at the last produced output. -/
structure GuessManager where
  markovModel : MarkovModel
  ttLastOutput : Nat

/-- NewGuessManager: fresh model (ngram size 3), zero checkpoint. -/
def NewGuessManager (e : Enumeration) : GuessManager :=
  { markovModel := NewMarkovModel e 3, ttLastOutput := 0 }

/-- GuessManager.InputName: same malformed/scope/disabled/label-depth guards
as the alterations producer; a surviving request trains the model. -/
def GuessManager.InputName (e : Enumeration) (r : GuessManager)
    (req : Option DNSRequest) : GuessManager :=
  match req with
  | none => r
  | some req0 =>
    if req0.Name = "" ∨ req0.Domain = "" then r
    else
      let req := e.SanitizeDNSRequest req0
      if ¬ e.Config.IsDomainInScope req.Name then r
      else if ¬ e.Config.Alterations then r
      else if labelCount req.Name ≤ labelCount req.Domain then r
      else { r with markovModel := r.markovModel.Train }

/-- The top-up sampling loop of GuessManager.OutputNames, fuel-indexed: while
fewer than `num` unique guesses are collected, one more `GenerateNames(num)`
round is merged in.  The Go loop has no other exit, so exhausted fuel
(`none`) stands for a loop that has not terminated within `fuel` rounds. -/
def guessLoop (gen : Nat → Nat → List String) (num : Nat) :
    Nat → Nat → List String → Option (List String × Nat)
  | 0, k, guesses =>
    if num ≤ guesses.length then some (guesses, k) else none
  | fuel + 1, k, guesses =>
    if num ≤ guesses.length then some (guesses, k)
    else guessLoop gen num fuel (k + 1) (insertMany guesses (gen k num))

/-- The sampling phase of GuessManager.OutputNames: an initial
`GenerateNames(num*2)` round followed by the top-up loop. -/
def guessSample (m : MarkovModel) (num fuel : Nat) :
    Option (List String × Nat) :=
  guessLoop m.GenerateNamesO num fuel (m.calls + 1)
    (insertMany [] (m.GenerateNamesO m.calls (num * 2)))

/-- The loop of `guessSample` diverges (never reaches `num` unique
candidates, for any amount of fuel). -/
def guessDiverges (m : MarkovModel) (num : Nat) : Prop :=
  ∀ fuel, guessSample m num fuel = none

/-- The filter applied to each sampled name before it is returned: the scope
collaborator must resolve a configured domain and the name must be nonempty. -/
def guessKeep (e : Enumeration) (n : String) : Bool :=
  ¬ (e.Config.WhichDomain n = "" ∨ n = "")

/-- The output request built for one surviving sampled name. -/
def guessPair (e : Enumeration) (n : String) : DNSRequest :=
  { Name := n, Domain := e.Config.WhichDomain n, Tag := GUESS,
    Source := "Markov Model", Records := [] }

/-- GuessManager.OutputNames: empty when alterations are disabled or the
cold-start/stale guard fails; otherwise the checkpoint is recorded, names are
sampled and the in-scope survivors (up to `num`) are returned.  `none` stands
for a sampling loop that has not terminated within `fuel` rounds. -/
def GuessManager.OutputNames (e : Enumeration) (r : GuessManager)
    (num fuel : Nat) : Option (List DNSRequest × GuessManager) :=
  if ¬ e.Config.Alterations then some ([], r)
  else if r.markovModel.TotalTrainings < 50 ∨
          r.markovModel.TotalTrainings ≤ r.ttLastOutput then some ([], r)
  else
    match guessSample r.markovModel num fuel with
    | none => none
    | some (guesses, k) =>
      some ((((guesses.filter (guessKeep e)).take num).map (guessPair e)),
            { markovModel := { r.markovModel with calls := k },
              ttLastOutput := r.markovModel.TotalTrainings })

/-- GuessManager.Stop: replaces the model with a fresh instance; the
`ttLastOutput` checkpoint is left as it was. -/
def GuessManager.Stop (e : Enumeration) (r : GuessManager) : GuessManager :=
  { r with markovModel := NewMarkovModel e 3 }

/-- The candidates still to be emitted for `base` starting at wordlist
position `idx`: one `brutePair` per non-empty remaining wordlist entry, in
wordlist order. -/
def bruteEmits (wl : List String) (idx : Nat) (base : DNSRequest) :
    List DNSRequest :=
  ((wl.drop idx).filter (fun w => w ≠ "")).map (fun w => brutePair w base)

/-- The full sequence of candidates a BruteManager cursor state has still to
emit: the remainder for the current base (the head of the queue plays that
role when the cursor is empty), then the whole wordlist for every later
queued base. -/
def brutePending (wl : List String) :
    List DNSRequest → Option DNSRequest → Nat → List DNSRequest
  | queue, some req, idx =>
    bruteEmits wl idx req ++ queue.flatMap (fun b => bruteEmits wl 0 b)
  | [], none, _ => []
  | q :: qs, none, idx =>
    bruteEmits wl idx q ++ qs.flatMap (fun b => bruteEmits wl 0 b)

/-- The pending emission sequence of a BruteManager state. -/
def BruteManager.pending (e : Enumeration) (r : BruteManager) :
    List DNSRequest :=
  brutePending e.Config.Wordlist r.queue r.curReq r.wordlistIdx

/-- A sequence of OutputNames calls with the given batch sizes; returns the
concatenated results and the final state. -/
def runOutputs (e : Enumeration) :
    BruteManager → List Nat → List DNSRequest × BruteManager
  | r, [] => ([], r)
  | r, n :: ns =>
    let p := r.OutputNames e n
    let q := runOutputs e p.2 ns
    (p.1 ++ q.1, q.2)

/-- A sequence of InputName calls; returns the final state and the list of
per-call outcomes. -/
def runBruteInputs (e : Enumeration) :
    BruteManager → List (Option DNSRequest) → BruteManager × List InputResult
  | r, [] => (r, [])
  | r, req :: reqs =>
    let p := r.inputNameR e req
    let q := runBruteInputs e p.2 reqs
    (q.1, p.1 :: q.2)

/-- The sanitized name an InputName call works with (the empty string for a
nil request). -/
def callName (e : Enumeration) (req : Option DNSRequest) : String :=
  match req with
  | none => ""
  | some req0 => (e.SanitizeDNSRequest req0).Name

/-- The BruteManager states reachable from construction by any sequence of
InputName, OutputNames and Stop calls. -/
inductive BruteReachable (e : Enumeration) : BruteManager → Prop where
  | base : BruteReachable e NewBruteManager
  | input (r : BruteManager) (req : Option DNSRequest) :
      BruteReachable e r → BruteReachable e (r.InputName e req)
  | output (r : BruteManager) (num : Nat) :
      BruteReachable e r → BruteReachable e (r.OutputNames e num).2
  | stop (r : BruteManager) :
      BruteReachable e r → BruteReachable e r.Stop

/-- The set of unique guesses accumulated after the initial oversampling
round and `rounds` further top-up rounds, for a model whose call counter
stood at `k0`. -/
def guessAccum (gen : Nat → Nat → List String) (num k0 : Nat) :
    Nat → List String
  | 0 => insertMany [] (gen k0 (num * 2))
  | rounds + 1 =>
    insertMany (guessAccum gen num k0 rounds) (gen (k0 + 1 + rounds) num)

/-- Neutral configuration used by the concrete test fixtures. -/
def baseConfig : Config :=
  { BruteForcing := false, Alterations := false, Wordlist := [],
    AltWordlist := [], MinForWordFlip := 0, EditDistance := 0,
    FlipNumbers := false, AddNumbers := false, FlipWords := false,
    AddWords := false, IsDomainInScope := fun _ => true,
    WhichDomain := fun _ => "" }

/-- Neutral collaborator bundle used by the concrete test fixtures. -/
def baseEnum : Enumeration :=
  { Config := baseConfig,
    hasCNAMERecord := fun _ => false,
    hasARecords := fun _ => true,
    SanitizeDNSRequest := fun req => req,
    altsNewState := fun wl =>
      { MinForWordFlip := 0, EditDistance := 0, Wordlist := wl },
    altsFlipNumbers := fun _ _ => [],
    altsAppendNumbers := fun _ _ => [],
    altsFlipWords := fun _ _ => [],
    altsAddSuffixWord := fun _ _ => [],
    altsAddPrefixWord := fun _ _ => [],
    altsFuzzyLabelSearches := fun _ _ => [],
    markovOracle := fun _ _ => [] }

/-- Fixture: brute forcing enabled over a three-entry wordlist with one empty
entry. -/
def eBrute : Enumeration :=
  { baseEnum with Config :=
      { baseConfig with BruteForcing := true, Wordlist := ["w1", "", "w2"] } }

/-- Fixture: two accepted base requests for the brute-forcing producer. -/
def bruteBases : List DNSRequest :=
  [⟨"b1", "d", "", "", []⟩, ⟨"b2", "d", "", "", []⟩]

/-- Fixture: the brute-forcing state holding `bruteBases` with a reset
cursor. -/
def bruteSt0 : BruteManager :=
  { queue := bruteBases, filter := [], wordlistIdx := 0, curReq := none }

/-- Fixture: brute forcing enabled with CNAME evidence on every request that
carries records (for the duplicate-filter provenance counterexample). -/
def eDup : Enumeration :=
  { baseEnum with
      Config := { baseConfig with BruteForcing := true },
      hasCNAMERecord := fun _ => true }

/-- Fixture: a request carrying DNS records. -/
def reqRec : DNSRequest := ⟨"x.d", "d", "", "", ["rec"]⟩

/-- Fixture: the same name submitted without records. -/
def reqNoRec : DNSRequest := ⟨"x.d", "d", "", "", []⟩

/-- Fixture: alterations enabled with every individual mutation rule
disabled. -/
def eAltOff : Enumeration :=
  { baseEnum with Config := { baseConfig with Alterations := true } }

/-- Fixture: an alterations state with two pending inputs and an empty
output buffer. -/
def altSt0 : AlterationsManager :=
  { inQueue := [⟨"a.d", "d", "", "", []⟩, ⟨"b.d", "d", "", "", []⟩],
    outQueue := [], altState := ⟨0, 0, []⟩ }

/-- Fixture: alterations/guessing enabled, every name resolving to
`example.com`, the sampler always yielding the single name
`a.example.com`. -/
def guessConfig : Config :=
  { baseConfig with
    Alterations := true
    WhichDomain := fun _ => "example.com" }

/-- Fixture: the collaborator bundle for the guessing tests. -/
def eGuess : Enumeration :=
  { baseEnum with
      Config := guessConfig,
      markovOracle := fun _ _ => ["a.example.com"] }

/-- Fixture: an in-scope trainable request. -/
def reqGuess : DNSRequest := ⟨"a.example.com", "example.com", "", "", []⟩

/-- Fixture: a model with 60 recorded training events whose sampler can only
ever produce the single name `a` (so no round ever reaches two unique
candidates). -/
def mDiverge : MarkovModel :=
  { TotalTrainings := 60, GenerateNamesO := fun _ _ => ["a"], calls := 0 }

/-- Fixture: a guessing state whose checkpoint is already at 100 training
events (as after producing output late in a previous run). -/
def gStale : GuessManager :=
  { markovModel := { TotalTrainings := 100,
                     GenerateNamesO := eGuess.markovOracle, calls := 0 },
    ttLastOutput := 100 }

/-- Fixture: a well-trained guessing state with a zero checkpoint. -/
def gReady : GuessManager :=
  { markovModel := { TotalTrainings := 60,
                     GenerateNamesO := eGuess.markovOracle, calls := 0 },
    ttLastOutput := 0 }

/-- Train a guessing producer on the same request `n` times through
InputName. -/
def trainTimes (e : Enumeration) (req : Option DNSRequest) :
    GuessManager → Nat → GuessManager
  | g, 0 => g
  | g, n + 1 => trainTimes e req (g.InputName e req) n

/-- A GuessManager Produce call whose sampling loop never terminates: no
amount of fuel makes OutputNames return. -/
def outputDiverges (e : Enumeration) (g : GuessManager) (num : Nat) : Prop :=
  ∀ fuel, g.OutputNames e num fuel = none

/- Helper lemmas about the brute-forcing wordlist traversal. -/

theorem bruteEmits_of_le {wl : List String} {idx : Nat} (base : DNSRequest)
    (h : wl.length ≤ idx) : bruteEmits wl idx base = [] := by
  simp [bruteEmits, List.drop_eq_nil_of_le h]

theorem bruteEmits_skip {wl : List String} {idx : Nat} (base : DNSRequest)
    (h : idx < wl.length) (hw : wl[idx] = "") :
    bruteEmits wl idx base = bruteEmits wl (idx + 1) base := by
  simp only [bruteEmits]
  rw [List.drop_eq_getElem_cons h, List.filter_cons_of_neg (by simpa using hw)]

theorem bruteEmits_cons {wl : List String} {idx : Nat} (base : DNSRequest)
    (h : idx < wl.length) (hw : ¬ wl[idx] = "") :
    bruteEmits wl idx base =
      brutePair wl[idx] base :: bruteEmits wl (idx + 1) base := by
  simp only [bruteEmits]
  rw [List.drop_eq_getElem_cons h, List.filter_cons_of_pos (by simpa using hw),
    List.map_cons]

theorem bruteWords_spec (wl : List String) (num : Nat) (base : DNSRequest)
    (idx count : Nat) (hc : count ≤ num) :
    (bruteWords wl num base idx count).1 =
      (bruteEmits wl idx base).take (num - count) ∧
    ((∃ idx2, (bruteWords wl num base idx count).2.2 = some idx2 ∧
        (bruteWords wl num base idx count).2.1 = num ∧
        num - count ≤ (bruteEmits wl idx base).length ∧
        bruteEmits wl idx2 base = (bruteEmits wl idx base).drop (num - count)) ∨
      ((bruteWords wl num base idx count).2.2 = none ∧
        (bruteWords wl num base idx count).2.1 =
          count + (bruteEmits wl idx base).length ∧
        count + (bruteEmits wl idx base).length < num)) := by
  revert hc
  induction idx, count using bruteWords.induct wl num base with
  | case1 idx count h =>
    intro hc
    have h0 : num - count = 0 := by omega
    have h1 : count = num := by omega
    rw [bruteWords]
    simp only [if_pos h, h0, List.take_zero, List.drop_zero]
    exact ⟨trivial, Or.inl ⟨idx, rfl, h1, by omega, rfl⟩⟩
  | case2 idx count h1 h2 word hw ih =>
    intro hc
    have hw2 : wl[idx] = "" := hw
    rw [bruteWords]
    simp only [if_neg h1, dif_pos h2, if_pos hw2]
    rw [bruteEmits_skip base h2 hw2]
    exact ih hc
  | case3 idx count h1 h2 word hw ih =>
    intro hc
    have hw2 : ¬ wl[idx] = "" := hw
    have hlt : count < num := Nat.lt_of_not_le h1
    obtain ⟨ih1, ih2⟩ := ih (by omega)
    have hsub : num - count = (num - (count + 1)) + 1 := by omega
    rw [bruteWords]
    simp only [if_neg h1, dif_pos h2, if_neg hw2]
    constructor
    · rw [bruteEmits_cons base h2 hw2, hsub, List.take_succ_cons, ih1]
    · rcases ih2 with ⟨idx2, e1, e2, e3, e4⟩ | ⟨f1, f2, f3⟩
      · refine Or.inl ⟨idx2, e1, e2, ?_, ?_⟩
        · rw [bruteEmits_cons base h2 hw2]
          simp only [List.length_cons]
          omega
        · rw [bruteEmits_cons base h2 hw2, hsub, List.drop_succ_cons]
          exact e4
      · refine Or.inr ⟨f1, ?_, ?_⟩
        · rw [bruteEmits_cons base h2 hw2]
          simp only [List.length_cons]
          omega
        · rw [bruteEmits_cons base h2 hw2]
          simp only [List.length_cons]
          omega
  | case4 idx count h1 h2 =>
    intro hc
    rw [bruteWords]
    simp only [if_neg h1, dif_neg h2]
    rw [bruteEmits_of_le base (Nat.le_of_not_lt h2)]
    exact ⟨by simp, Or.inr ⟨trivial, by simp, by simpa using Nat.lt_of_not_le h1⟩⟩

theorem brutePending_none (wl : List String) (queue : List DNSRequest) :
    brutePending wl queue none 0 =
      queue.flatMap (fun b => bruteEmits wl 0 b) := by
  cases queue <;> simp [brutePending]

theorem brutePending_cons (wl : List String) (q : DNSRequest)
    (qs : List DNSRequest) (idx : Nat) :
    brutePending wl (q :: qs) none idx = brutePending wl qs (some q) idx := by
  simp [brutePending]

theorem brutePending_some (wl : List String) (queue : List DNSRequest)
    (req : DNSRequest) (idx : Nat) :
    brutePending wl queue (some req) idx =
      bruteEmits wl idx req ++ queue.flatMap (fun b => bruteEmits wl 0 b) := by
  simp [brutePending]

theorem bruteQueue_spec (wl : List String) (num : Nat)
    (queue : List DNSRequest) (cur : Option DNSRequest) (idx count : Nat)
    (hc : count ≤ num) :
    (bruteQueue wl num queue cur idx count).1 =
      (brutePending wl queue cur idx).take (num - count) ∧
    brutePending wl (bruteQueue wl num queue cur idx count).2.1
        (bruteQueue wl num queue cur idx count).2.2.1
        (bruteQueue wl num queue cur idx count).2.2.2 =
      (brutePending wl queue cur idx).drop (num - count) := by
  revert hc
  induction queue, cur, idx, count using bruteQueue.induct wl num with
  | case1 queue req idx count ems cnt2 idx2 heq =>
    intro hc
    obtain ⟨w1, w2⟩ := bruteWords_spec wl num req idx count hc
    rw [heq] at w1 w2
    simp only at w1 w2
    rcases w2 with ⟨idx2', e1, _, e3, e4⟩ | ⟨f1, _, _⟩
    · obtain rfl : idx2 = idx2' := by simpa using e1
      rw [bruteQueue, heq]
      dsimp only
      constructor
      · rw [w1, brutePending_some, List.take_append_of_le_length e3]
      · rw [brutePending_some, brutePending_some, e4,
          List.drop_append_of_le_length e3]
    · exact absurd f1 (by simp)
  | case2 queue req idx count ems cnt2 heq ih =>
    intro hc
    obtain ⟨w1, w2⟩ := bruteWords_spec wl num req idx count hc
    rw [heq] at w1 w2
    simp only at w1 w2
    rcases w2 with ⟨idx2', e1, _, _, _⟩ | ⟨_, f2, f3⟩
    · exact absurd e1 (by simp)
    · have hlen : (bruteEmits wl idx req).length ≤ num - count := by omega
      have hw1 : ems = bruteEmits wl idx req := by
        rw [w1, List.take_of_length_le hlen]
      have hc2 : cnt2 ≤ num := by omega
      obtain ⟨ih1, ih2⟩ := ih hc2
      rw [brutePending_none] at ih1 ih2
      have hkey : num - count =
          (bruteEmits wl idx req).length + (num - cnt2) := by omega
      rw [bruteQueue, heq]
      dsimp only
      constructor
      · rw [brutePending_some, hkey, List.take_add, List.take_left,
          List.drop_left, hw1, ih1]
      · rw [brutePending_some, hkey, ← List.drop_drop, List.drop_left]
        exact ih2
  | case3 idx count =>
    intro hc
    rw [bruteQueue]
    simp [brutePending]
  | case4 q qs idx count ih =>
    intro hc
    rw [bruteQueue, brutePending_cons]
    exact ih hc

theorem outputNames_take_drop (e : Enumeration) (r : BruteManager) (num : Nat)
    (hb : e.Config.BruteForcing = true) :
    (r.OutputNames e num).1 = (r.pending e).take num ∧
    (r.OutputNames e num).2.pending e = (r.pending e).drop num := by
  have h := bruteQueue_spec e.Config.Wordlist num r.queue r.curReq
    r.wordlistIdx 0 (Nat.zero_le num)
  simp only [Nat.sub_zero] at h
  unfold BruteManager.OutputNames BruteManager.pending
  rw [if_neg (by simp [hb])]
  exact h

theorem runOutputs_take_drop (e : Enumeration) (hb : e.Config.BruteForcing = true)
    (ns : List Nat) (r : BruteManager) :
    (runOutputs e r ns).1 = (r.pending e).take ns.sum ∧
    ((runOutputs e r ns).2).pending e = (r.pending e).drop ns.sum := by
  induction ns generalizing r with
  | nil => simp [runOutputs]
  | cons n ns ih =>
    obtain ⟨o1, o2⟩ := outputNames_take_drop e r n hb
    obtain ⟨i1, i2⟩ := ih (r.OutputNames e n).2
    simp only [runOutputs]
    constructor
    · rw [i1, o1, o2, List.sum_cons, List.take_add]
    · rw [i2, o2, List.drop_drop, List.sum_cons, Nat.add_comm]

theorem bruteEmits_zero (wl : List String) (b : DNSRequest) :
    bruteEmits wl 0 b =
      (wl.filter (fun w => w ≠ "")).map (fun w => brutePair w b) := by
  simp [bruteEmits]

theorem length_filter_ne_add (wl : List String) :
    (wl.filter (fun w => w ≠ "")).length +
      (wl.filter (fun w => w = "")).length = wl.length := by
  have h := @List.length_eq_length_filter_add _ wl (fun w => w = "")
  have hpred : wl.filter (fun w => w ≠ "") =
      wl.filter (fun x : String => !decide (x = "")) := by
    apply List.filter_congr
    intro w _
    simp [decide_not]
  rw [hpred]
  simp only [Function.comp] at h
  omega

theorem flatMap_const_length (reqs : List DNSRequest)
    (f : DNSRequest → List DNSRequest) (c : Nat)
    (h : ∀ b, (f b).length = c) :
    (reqs.flatMap f).length = reqs.length * c := by
  induction reqs with
  | nil => simp
  | cons q qs ih => simp [List.flatMap_cons, h, ih, Nat.succ_mul, Nat.add_comm]

theorem pending_start (e : Enumeration) (reqs : List DNSRequest)
    (flt : List String) :
    BruteManager.pending e ⟨reqs, flt, 0, none⟩ =
      reqs.flatMap (fun b =>
        (e.Config.Wordlist.filter (fun w => w ≠ "")).map
          (fun w => brutePair w b)) := by
  show brutePending e.Config.Wordlist reqs none 0 = _
  rw [brutePending_none]
  simp only [bruteEmits_zero]

theorem mem_bruteEmits {wl : List String} {i : Nat} {b req : DNSRequest}
    (h : req ∈ bruteEmits wl i b) :
    ∃ w, w ∈ wl ∧ ¬ w = "" ∧ req = brutePair w b := by
  simp only [bruteEmits, List.mem_map, List.mem_filter] at h
  obtain ⟨w, ⟨hw1, hw2⟩, rfl⟩ := h
  exact ⟨w, List.mem_of_mem_drop hw1, by simpa using hw2, rfl⟩

theorem mem_brutePending {wl : List String} {queue : List DNSRequest}
    {cur : Option DNSRequest} {idx : Nat} {req : DNSRequest}
    (h : req ∈ brutePending wl queue cur idx) :
    ∃ w b, w ∈ wl ∧ ¬ w = "" ∧ req = brutePair w b := by
  have hflat : ∀ qs : List DNSRequest,
      req ∈ qs.flatMap (fun b => bruteEmits wl 0 b) →
      ∃ w b, w ∈ wl ∧ ¬ w = "" ∧ req = brutePair w b := by
    intro qs hq
    obtain ⟨b, _, hb⟩ := List.mem_flatMap.mp hq
    obtain ⟨w, h1, h2, h3⟩ := mem_bruteEmits hb
    exact ⟨w, b, h1, h2, h3⟩
  cases cur with
  | some q =>
    rw [brutePending_some] at h
    rcases List.mem_append.mp h with h1 | h2
    · obtain ⟨w, a1, a2, a3⟩ := mem_bruteEmits h1
      exact ⟨w, q, a1, a2, a3⟩
    · exact hflat _ h2
  | none =>
    cases queue with
    | nil => simp [brutePending] at h
    | cons q qs =>
      rw [brutePending_cons, brutePending_some] at h
      rcases List.mem_append.mp h with h1 | h2
      · obtain ⟨w, a1, a2, a3⟩ := mem_bruteEmits h1
        exact ⟨w, q, a1, a2, a3⟩
      · exact hflat _ h2

/-- C1: for the expansion producer with brute forcing enabled, starting from
an accepted queue of `B = reqs.length` base requests and a reset cursor, any
sequence of OutputNames calls with positive batch sizes totalling at least
`(W - E) * B` (where `W` is the wordlist length and `E` the number of empty
entries) collectively returns exactly the cross product in wordlist-minor
order — for each base in acceptance order, one `brutePair w base` (whose name
is `w ++ "." ++ base.Name`) per non-empty wordlist entry `w` in wordlist
order — so every pairing appears exactly once, `(W - E) * B` items in all. -/
theorem brute_outputNames_cross_product (e : Enumeration)
    (reqs : List DNSRequest) (flt : List String) (ns : List Nat)
    (hb : e.Config.BruteForcing = true)
    (hpos : ∀ n ∈ ns, 0 < n)
    (henough : (e.Config.Wordlist.length -
        (e.Config.Wordlist.filter (fun w => w = "")).length) * reqs.length ≤
      ns.sum) :
    (runOutputs e ⟨reqs, flt, 0, none⟩ ns).1 =
      reqs.flatMap (fun b =>
        (e.Config.Wordlist.filter (fun w => w ≠ "")).map
          (fun w => brutePair w b)) ∧
    (runOutputs e ⟨reqs, flt, 0, none⟩ ns).1.length =
      (e.Config.Wordlist.length -
        (e.Config.Wordlist.filter (fun w => w = "")).length) * reqs.length := by
  obtain ⟨t1, _⟩ := runOutputs_take_drop e hb ns ⟨reqs, flt, 0, none⟩
  rw [pending_start] at t1
  have hflen : ∀ b : DNSRequest,
      ((e.Config.Wordlist.filter (fun w => w ≠ "")).map
        (fun w => brutePair w b)).length =
      (e.Config.Wordlist.filter (fun w => w ≠ "")).length := by
    intro b
    simp
  have hlen : (reqs.flatMap (fun b =>
      (e.Config.Wordlist.filter (fun w => w ≠ "")).map
        (fun w => brutePair w b))).length =
      (e.Config.Wordlist.length -
        (e.Config.Wordlist.filter (fun w => w = "")).length) * reqs.length := by
    rw [flatMap_const_length _ _ _ hflen]
    have hpart := length_filter_ne_add e.Config.Wordlist
    have hne : (e.Config.Wordlist.filter (fun w => w ≠ "")).length =
        e.Config.Wordlist.length -
          (e.Config.Wordlist.filter (fun w => w = "")).length := by omega
    rw [hne, Nat.mul_comm]
  have hwhole : (reqs.flatMap (fun b =>
      (e.Config.Wordlist.filter (fun w => w ≠ "")).map
        (fun w => brutePair w b))).length ≤ ns.sum := by
    rw [hlen]
    exact henough
  refine ⟨?_, ?_⟩
  · rw [t1, List.take_of_length_le hwhole]
  · rw [t1, List.take_of_length_le hwhole, hlen]

theorem brute_cross_product_witness :
    (∀ n ∈ [1, 1, 1, 1, 1], 0 < n) ∧
    (runOutputs eBrute ⟨bruteBases, [], 0, none⟩ [1, 1, 1, 1, 1]).1 =
      bruteBases.flatMap (fun b =>
        (eBrute.Config.Wordlist.filter (fun w => w ≠ "")).map
          (fun w => brutePair w b)) ∧
    (runOutputs eBrute ⟨bruteBases, [], 0, none⟩ [1, 1, 1, 1, 1]).1.length =
      (eBrute.Config.Wordlist.length -
        (eBrute.Config.Wordlist.filter (fun w => w = "")).length) *
        bruteBases.length :=
  ⟨by decide,
   brute_outputNames_cross_product eBrute bruteBases [] [1, 1, 1, 1, 1]
     (by decide) (by decide) (by decide)⟩

/-- C7: for the expansion producer with brute forcing enabled, a single
OutputNames call returns exactly the next `num` entries of the pending
traversal (which contains one pairing per non-empty wordlist entry only, so
empty entries never appear and do not consume budget), the new cursor state
has exactly the remainder of the traversal pending (empty entries are
skipped by advancing the index), and every returned request is built from a
non-empty wordlist entry. -/
theorem brute_outputNames_skips_empty (e : Enumeration) (r : BruteManager)
    (num : Nat) (hb : e.Config.BruteForcing = true) :
    (r.OutputNames e num).1 = (r.pending e).take num ∧
    (r.OutputNames e num).2.pending e = (r.pending e).drop num ∧
    ∀ req ∈ (r.OutputNames e num).1,
      ∃ w b, w ∈ e.Config.Wordlist ∧ ¬ w = "" ∧ req = brutePair w b := by
  obtain ⟨t1, t2⟩ := outputNames_take_drop e r num hb
  refine ⟨t1, t2, ?_⟩
  intro req hreq
  rw [t1] at hreq
  exact mem_brutePending (List.mem_of_mem_take hreq)

theorem brute_skips_empty_witness :
    (bruteSt0.OutputNames eBrute 3).1 = (bruteSt0.pending eBrute).take 3 ∧
    ((bruteSt0.OutputNames eBrute 3).2.pending eBrute =
      (bruteSt0.pending eBrute).drop 3) ∧
    ∀ req ∈ (bruteSt0.OutputNames eBrute 3).1,
      ∃ w b, w ∈ eBrute.Config.Wordlist ∧ ¬ w = "" ∧ req = brutePair w b :=
  brute_outputNames_skips_empty eBrute bruteSt0 3 (by decide)

/-- C9: every producer returns between 0 and `maxCount` items from a single
OutputNames call (for the guessing producer: whenever the call returns at
all). -/
theorem outputNames_at_most_num (e : Enumeration) (num : Nat) :
    (∀ r : BruteManager, (r.OutputNames e num).1.length ≤ num) ∧
    (∀ a : AlterationsManager, (a.OutputNames e num).1.length ≤ num) ∧
    (∀ (g : GuessManager) (fuel : Nat) (res : List DNSRequest)
        (g' : GuessManager),
      g.OutputNames e num fuel = some (res, g') → res.length ≤ num) := by
  refine ⟨?_, ?_, ?_⟩
  · intro r
    by_cases hb : e.Config.BruteForcing = true
    · obtain ⟨t1, _⟩ := outputNames_take_drop e r num hb
      rw [t1]
      simp [List.length_take]
    · unfold BruteManager.OutputNames
      rw [if_pos hb]
      simp
  · intro a
    unfold AlterationsManager.OutputNames
    by_cases ha : e.Config.Alterations = true
    · rw [if_neg (by simp [ha])]
      simp [List.length_take]
    · rw [if_pos ha]
      simp
  · intro g fuel res g' h
    unfold GuessManager.OutputNames at h
    by_cases ha : e.Config.Alterations = true
    · rw [if_neg (by simp [ha])] at h
      by_cases hguard : g.markovModel.TotalTrainings < 50 ∨
          g.markovModel.TotalTrainings ≤ g.ttLastOutput
      · rw [if_pos hguard] at h
        simp only [Option.some.injEq, Prod.mk.injEq] at h
        obtain ⟨h1, _⟩ := h
        rw [← h1]
        simp
      · rw [if_neg hguard] at h
        rcases hs : guessSample g.markovModel num fuel with _ | ⟨gs, k⟩
        · rw [hs] at h
          cases h
        · rw [hs] at h
          simp only [Option.some.injEq, Prod.mk.injEq] at h
          obtain ⟨h1, _⟩ := h
          rw [← h1]
          simp [List.length_take]
    · rw [if_pos ha] at h
      simp only [Option.some.injEq, Prod.mk.injEq] at h
      obtain ⟨h1, _⟩ := h
      rw [← h1]
      simp

theorem outputNames_at_most_num_witness :
    [guessPair eGuess "a.example.com"].length ≤ 1 :=
  (outputNames_at_most_num eGuess 1).2.2 gReady 5
    [guessPair eGuess "a.example.com"]
    { markovModel := { TotalTrainings := 60,
                       GenerateNamesO := eGuess.markovOracle, calls := 1 },
      ttLastOutput := 60 }
    rfl

theorem bruteWords_some_le (wl : List String) (num : Nat) (base : DNSRequest)
    (idx count : Nat) (h : idx ≤ wl.length) :
    ∀ idx2, (bruteWords wl num base idx count).2.2 = some idx2 →
      idx2 ≤ wl.length := by
  revert h
  induction idx, count using bruteWords.induct wl num base with
  | case1 idx count h1 =>
    intro h idx2 he
    rw [bruteWords] at he
    simp only [if_pos h1] at he
    obtain rfl : idx = idx2 := by simpa using he
    exact h
  | case2 idx count h1 h2 word hw ih =>
    intro h idx2 he
    rw [bruteWords] at he
    simp only [if_neg h1, dif_pos h2, if_pos (show wl[idx] = "" from hw)] at he
    exact ih (by omega) idx2 he
  | case3 idx count h1 h2 word hw ih =>
    intro h idx2 he
    rw [bruteWords] at he
    simp only [if_neg h1, dif_pos h2, if_neg (show ¬ wl[idx] = "" from hw)]
      at he
    exact ih (by omega) idx2 he
  | case4 idx count h1 h2 =>
    intro h idx2 he
    rw [bruteWords] at he
    simp only [if_neg h1, dif_neg h2] at he
    cases he

theorem bruteQueue_inv (wl : List String) (num : Nat)
    (queue : List DNSRequest) (cur : Option DNSRequest) (idx count : Nat)
    (h1 : idx ≤ wl.length) (h2 : cur = none → idx = 0) :
    (bruteQueue wl num queue cur idx count).2.2.2 ≤ wl.length ∧
    ((bruteQueue wl num queue cur idx count).2.2.1 = none →
      (bruteQueue wl num queue cur idx count).2.2.2 = 0) := by
  revert h1 h2
  induction queue, cur, idx, count using bruteQueue.induct wl num with
  | case1 queue req idx count ems cnt2 idx2 heq =>
    intro h1 h2
    rw [bruteQueue, heq]
    dsimp only
    refine ⟨bruteWords_some_le wl num req idx count h1 idx2 (by rw [heq]), ?_⟩
    intro hc
    cases hc
  | case2 queue req idx count ems cnt2 heq ih =>
    intro h1 h2
    rw [bruteQueue, heq]
    dsimp only
    exact ih (Nat.zero_le _) (fun _ => rfl)
  | case3 idx count =>
    intro h1 h2
    rw [bruteQueue]
    dsimp only
    refine ⟨?_, fun _ => h2 rfl⟩
    rw [h2 rfl]
    exact Nat.zero_le _
  | case4 q qs idx count ih =>
    intro h1 h2
    rw [bruteQueue]
    exact ih h1 (fun hc => by cases hc)

theorem inputNameR_cursor (e : Enumeration) (r : BruteManager)
    (req : Option DNSRequest) :
    (r.inputNameR e req).2.wordlistIdx = r.wordlistIdx ∧
    (r.inputNameR e req).2.curReq = r.curReq := by
  unfold BruteManager.inputNameR
  cases req with
  | none => exact ⟨rfl, rfl⟩
  | some q =>
    dsimp only
    split_ifs <;> exact ⟨rfl, rfl⟩

/-- C10: in every BruteManager state reachable from construction by any
sequence of InputName, OutputNames and Stop calls, the wordlist index stays
within `0 ≤ wordlistIdx ≤ wordlist.length` (the lower bound holds by the
index being a natural number), and an empty cursor forces the index back to
0, so a newly pulled base request always starts at the top of the
wordlist. -/
theorem brute_cursor_invariant (e : Enumeration) (r : BruteManager)
    (h : BruteReachable e r) :
    r.wordlistIdx ≤ e.Config.Wordlist.length ∧
    (r.curReq = none → r.wordlistIdx = 0) := by
  induction h with
  | base => exact ⟨Nat.zero_le _, fun _ => rfl⟩
  | input r req _ ih =>
    obtain ⟨c1, c2⟩ := inputNameR_cursor e r req
    unfold BruteManager.InputName
    rw [c1, c2]
    exact ih
  | output r num _ ih =>
    by_cases hb : e.Config.BruteForcing = true
    · unfold BruteManager.OutputNames
      rw [if_neg (by simp [hb])]
      exact bruteQueue_inv e.Config.Wordlist num r.queue r.curReq
        r.wordlistIdx 0 ih.1 ih.2
    · unfold BruteManager.OutputNames
      rw [if_pos hb]
      exact ih
  | stop r _ _ => exact ⟨Nat.zero_le _, fun _ => rfl⟩

theorem brute_cursor_invariant_witness :
    NewBruteManager.wordlistIdx ≤ eBrute.Config.Wordlist.length ∧
    (NewBruteManager.curReq = none → NewBruteManager.wordlistIdx = 0) :=
  brute_cursor_invariant eBrute NewBruteManager BruteReachable.base

/- Helper lemmas about the guessing producer. -/

theorem guess_guard_empty (e : Enumeration) (g : GuessManager) (num fuel : Nat)
    (hg : g.markovModel.TotalTrainings < 50 ∨
      g.markovModel.TotalTrainings ≤ g.ttLastOutput) :
    g.OutputNames e num fuel = some ([], g) := by
  unfold GuessManager.OutputNames
  by_cases ha : e.Config.Alterations = true
  · rw [if_neg (by simp [ha]), if_pos hg]
  · rw [if_pos ha]

theorem guess_outputNames_inv (e : Enumeration) (g : GuessManager)
    (num fuel : Nat) (res : List DNSRequest) (g' : GuessManager)
    (h : g.OutputNames e num fuel = some (res, g')) :
    (res = [] ∧ g' = g ∧
      (¬ e.Config.Alterations = true ∨
       g.markovModel.TotalTrainings < 50 ∨
       g.markovModel.TotalTrainings ≤ g.ttLastOutput)) ∨
    (e.Config.Alterations = true ∧
     ¬ (g.markovModel.TotalTrainings < 50 ∨
        g.markovModel.TotalTrainings ≤ g.ttLastOutput) ∧
     ∃ gs k, guessSample g.markovModel num fuel = some (gs, k) ∧
       res = ((gs.filter (guessKeep e)).take num).map (guessPair e) ∧
       g' = { markovModel := { g.markovModel with calls := k },
              ttLastOutput := g.markovModel.TotalTrainings }) := by
  unfold GuessManager.OutputNames at h
  by_cases ha : e.Config.Alterations = true
  · rw [if_neg (by simp [ha])] at h
    by_cases hg : g.markovModel.TotalTrainings < 50 ∨
        g.markovModel.TotalTrainings ≤ g.ttLastOutput
    · rw [if_pos hg] at h
      simp only [Option.some.injEq, Prod.mk.injEq] at h
      exact Or.inl ⟨h.1.symm, h.2.symm, Or.inr hg⟩
    · rw [if_neg hg] at h
      rcases hs : guessSample g.markovModel num fuel with _ | ⟨gs, k⟩
      · rw [hs] at h
        cases h
      · rw [hs] at h
        simp only [Option.some.injEq, Prod.mk.injEq] at h
        exact Or.inr ⟨ha, hg, gs, k, rfl, h.1.symm, h.2.symm⟩
  · rw [if_pos ha] at h
    simp only [Option.some.injEq, Prod.mk.injEq] at h
    exact Or.inl ⟨h.1.symm, h.2.symm, Or.inl ha⟩

/-- C3: the guessing producer returns empty (and leaves its state untouched)
whenever the model has fewer than 50 training events or the training count
has not increased past the checkpoint; when both guards pass (and the
feature is enabled), the returned state's checkpoint equals the current
training count, so any immediately following OutputNames call with no
intervening training returns empty. -/
theorem guess_guard_and_checkpoint :
    (∀ (e : Enumeration) (g : GuessManager) (num fuel : Nat),
      (g.markovModel.TotalTrainings < 50 ∨
       g.markovModel.TotalTrainings ≤ g.ttLastOutput) →
      g.OutputNames e num fuel = some ([], g)) ∧
    (∀ (e : Enumeration) (g : GuessManager) (num fuel : Nat)
        (res : List DNSRequest) (g' : GuessManager),
      g.OutputNames e num fuel = some (res, g') →
      e.Config.Alterations = true →
      ¬ (g.markovModel.TotalTrainings < 50 ∨
         g.markovModel.TotalTrainings ≤ g.ttLastOutput) →
      g'.ttLastOutput = g.markovModel.TotalTrainings) ∧
    (∀ (e : Enumeration) (g : GuessManager) (num fuel : Nat)
        (res : List DNSRequest) (g' : GuessManager) (num2 fuel2 : Nat),
      g.OutputNames e num fuel = some (res, g') →
      g'.OutputNames e num2 fuel2 = some ([], g')) := by
  refine ⟨guess_guard_empty, ?_, ?_⟩
  · intro e g num fuel res g' h ha hg
    rcases guess_outputNames_inv e g num fuel res g' h with
      ⟨_, _, hor⟩ | ⟨_, _, gs, k, _, _, hg'⟩
    · rcases hor with h1 | h1
      · exact absurd ha h1
      · exact absurd h1 hg
    · rw [hg']
  · intro e g num fuel res g' num2 fuel2 h
    rcases guess_outputNames_inv e g num fuel res g' h with
      ⟨_, hgg, hor⟩ | ⟨_, _, gs, k, _, _, hg'⟩
    · rw [hgg]
      rcases hor with h1 | h1
      · unfold GuessManager.OutputNames
        rw [if_pos h1]
      · exact guess_guard_empty e g num2 fuel2 h1
    · apply guess_guard_empty
      rw [hg']
      exact Or.inr (Nat.le_refl _)

theorem guess_guard_witness : gStale.OutputNames eGuess 1 5 = some ([], gStale) :=
  guess_guard_and_checkpoint.1 eGuess gStale 1 5 (by decide)

/-- C8: when the guessing producer actually samples (feature enabled, both
guards passed), the returned requests are exactly the sampled unique names
that survive the scope filter — a sampled name resolving to no configured
domain, or empty, is discarded without consuming any of the `num` budget —
taken up to `num` and tagged with the resolved domain and the guess-origin
tag. -/
theorem guess_domain_filtering (e : Enumeration) (g : GuessManager)
    (num fuel : Nat) (res : List DNSRequest) (g' : GuessManager)
    (h : g.OutputNames e num fuel = some (res, g'))
    (ha : e.Config.Alterations = true)
    (hg : ¬ (g.markovModel.TotalTrainings < 50 ∨
        g.markovModel.TotalTrainings ≤ g.ttLastOutput)) :
    (∃ gs k, guessSample g.markovModel num fuel = some (gs, k) ∧
      res = ((gs.filter (guessKeep e)).take num).map (guessPair e)) ∧
    ∀ req ∈ res, req.Domain = e.Config.WhichDomain req.Name ∧
      req.Domain ≠ "" ∧ req.Name ≠ "" ∧ req.Tag = GUESS := by
  rcases guess_outputNames_inv e g num fuel res g' h with
    ⟨_, _, hor⟩ | ⟨_, _, gs, k, hs, hres, _⟩
  · rcases hor with h1 | h1
    · exact absurd ha h1
    · exact absurd h1 hg
  · refine ⟨⟨gs, k, hs, hres⟩, ?_⟩
    intro req hreq
    rw [hres] at hreq
    obtain ⟨n, hn, rfl⟩ := List.mem_map.mp hreq
    have hkeep : guessKeep e n = true :=
      List.of_mem_filter (List.mem_of_mem_take hn)
    simp only [guessKeep, decide_not, Bool.not_eq_true', decide_eq_false_iff_not,
      not_or, decide_eq_true_eq] at hkeep
    exact ⟨rfl, hkeep.1, hkeep.2, rfl⟩

theorem insertName_nodup (s : List String) (x : String) (h : s.Nodup) :
    (insertName s x).Nodup := by
  unfold insertName
  split_ifs with hx
  · exact h
  · simp [List.nodup_append, h, hx]

theorem insertMany_nodup (xs s : List String) (h : s.Nodup) :
    (insertMany s xs).Nodup := by
  induction xs generalizing s with
  | nil => exact h
  | cons y ys ih => exact ih (insertName s y) (insertName_nodup s y h)

theorem guessLoop_some_spec (gen : Nat → Nat → List String) (num : Nat) :
    ∀ (fuel k : Nat) (gs gs' : List String) (k' : Nat), gs.Nodup →
      guessLoop gen num fuel k gs = some (gs', k') →
      num ≤ gs'.length ∧ gs'.Nodup := by
  intro fuel
  induction fuel with
  | zero =>
    intro k gs gs' k' hnd h
    unfold guessLoop at h
    split_ifs at h with hc
    · simp only [Option.some.injEq, Prod.mk.injEq] at h
      rw [← h.1]
      exact ⟨hc, hnd⟩
  | succ fuel ih =>
    intro k gs gs' k' hnd h
    unfold guessLoop at h
    split_ifs at h with hc
    · simp only [Option.some.injEq, Prod.mk.injEq] at h
      rw [← h.1]
      exact ⟨hc, hnd⟩
    · exact ih (k + 1) _ gs' k' (insertMany_nodup _ _ hnd) h

theorem guessLoop_none_of_short (gen : Nat → Nat → List String)
    (num k0 : Nat)
    (hlt : ∀ rounds, (guessAccum gen num k0 rounds).length < num) :
    ∀ fuel rounds,
      guessLoop gen num fuel (k0 + 1 + rounds) (guessAccum gen num k0 rounds) =
        none := by
  intro fuel
  induction fuel with
  | zero =>
    intro rounds
    unfold guessLoop
    rw [if_neg (by exact Nat.not_le_of_lt (hlt rounds))]
  | succ fuel ih =>
    intro rounds
    unfold guessLoop
    rw [if_neg (by exact Nat.not_le_of_lt (hlt rounds))]
    have harr : k0 + 1 + rounds + 1 = k0 + 1 + (rounds + 1) := by omega
    rw [harr]
    exact ih (rounds + 1)

theorem guessSample_diverges (m : MarkovModel) (num : Nat)
    (hlt : ∀ rounds,
      (guessAccum m.GenerateNamesO num m.calls rounds).length < num) :
    guessDiverges m num := by
  intro fuel
  have h := guessLoop_none_of_short m.GenerateNamesO num m.calls hlt fuel 0
  unfold guessSample
  exact h

/-- C5 counterexample: with a model whose sampler can only ever produce the
single name `a`, a request for two candidates makes the top-up loop spin
forever — OutputNames never returns, for any amount of fuel, although no
sampling round can obtain any further new candidate.  This refutes the
claimed second exit of the loop. -/
theorem guess_topup_nontermination :
    outputDiverges eGuess { markovModel := mDiverge, ttLastOutput := 0 } 2 := by
  have hconst : ∀ rounds,
      guessAccum mDiverge.GenerateNamesO 2 mDiverge.calls rounds = ["a"] := by
    intro rounds
    induction rounds with
    | zero => rfl
    | succ r ih =>
      show insertMany (guessAccum mDiverge.GenerateNamesO 2 mDiverge.calls r)
        (mDiverge.GenerateNamesO (mDiverge.calls + 1 + r) 2) = ["a"]
      rw [ih]
      rfl
  have hdiv : guessDiverges mDiverge 2 :=
    guessSample_diverges mDiverge 2 (by
      intro rounds
      rw [hconst rounds]
      decide)
  intro fuel
  unfold GuessManager.OutputNames
  rw [if_neg (by decide), if_neg (by decide)]
  rw [hdiv fuel]

/-- C5 amended: the top-up sampling loop stops as soon as at least `num`
unique candidates have been collected (and any returned collection is
duplicate-free of size at least `num`), but that budget condition is its
only exit: whenever every sampling round leaves fewer than `num` unique
candidates — in particular when sampling can obtain no further new
candidates while below `num` — the loop never terminates. -/
theorem guess_topup_characterization :
    (∀ (m : MarkovModel) (num fuel : Nat) (gs : List String) (k : Nat),
      guessSample m num fuel = some (gs, k) →
      num ≤ gs.length ∧ gs.Nodup) ∧
    (∀ (m : MarkovModel) (num : Nat),
      (∀ rounds,
        (guessAccum m.GenerateNamesO num m.calls rounds).length < num) →
      guessDiverges m num) := by
  constructor
  · intro m num fuel gs k h
    exact guessLoop_some_spec m.GenerateNamesO num fuel (m.calls + 1) _ gs k
      (insertMany_nodup _ _ List.nodup_nil) h
  · exact guessSample_diverges

theorem guess_topup_characterization_witness :
    (1 : Nat) ≤ (["a.example.com"] : List String).length ∧
    (["a.example.com"] : List String).Nodup :=
  guess_topup_characterization.1 gReady.markovModel 1 5 ["a.example.com"] 1 rfl

theorem guess_domain_filtering_witness :
    (∃ gs k, guessSample gReady.markovModel 1 5 = some (gs, k) ∧
      [guessPair eGuess "a.example.com"] =
        ((gs.filter (guessKeep eGuess)).take 1).map (guessPair eGuess)) ∧
    ∀ req ∈ [guessPair eGuess "a.example.com"],
      req.Domain = eGuess.Config.WhichDomain req.Name ∧
      req.Domain ≠ "" ∧ req.Name ≠ "" ∧ req.Tag = GUESS :=
  guess_domain_filtering eGuess gReady 1 5 [guessPair eGuess "a.example.com"]
    { markovModel := { TotalTrainings := 60,
                       GenerateNamesO := eGuess.markovOracle, calls := 1 },
      ttLastOutput := 60 }
    rfl (by decide) (by decide)

/- Helper lemmas about the alterations producer. -/

theorem generateAlts_zero_iff (e : Enumeration) (r : AlterationsManager) :
    (r.generateAlts e).1 = 0 ↔
    (r.inQueue = [] ∨ ∃ req rest, r.inQueue = req :: rest ∧
      scopedAlts e r.altState req.Name = []) := by
  unfold AlterationsManager.generateAlts
  cases hq : r.inQueue with
  | nil => simp
  | cons req rest =>
    dsimp only
    rw [List.length_eq_zero]
    constructor
    · intro h
      exact Or.inr ⟨req, rest, rfl, h⟩
    · intro h
      rcases h with h | ⟨req', rest', he, hs⟩
      · cases h
      · injection he with h1 h2
        rw [h1]
        exact hs

/-- C4 counterexample: with every individual mutation rule disabled (a
configuration the spec itself allows), an expansion step on a two-element
pending queue yields zero new names while the queue is not exhausted, and
the refill loop of OutputNames stops with fewer than `n` items buffered
while a pending input is still queued. -/
theorem alt_zero_yield_cex :
    (altSt0.generateAlts eAltOff).1 = 0 ∧ altSt0.inQueue ≠ [] ∧
    (altSt0.OutputNames eAltOff 3).1.length < 3 ∧
    (altSt0.OutputNames eAltOff 3).2.inQueue ≠ [] := by
  decide

theorem altRefill_stop (e : Enumeration) (num : Nat) (inQ outQ : List DNSRequest)
    (st : AltsState) (hc : num ≤ outQ.length) :
    altRefill e num inQ outQ st = (inQ, outQ) := by
  rw [altRefill.eq_def]
  show (if num ≤ outQ.length then (inQ, outQ) else _) = (inQ, outQ)
  rw [if_pos hc]

theorem altRefill_nil (e : Enumeration) (num : Nat) (outQ : List DNSRequest)
    (st : AltsState) (hc : ¬ num ≤ outQ.length) :
    altRefill e num [] outQ st = ([], outQ) := by
  rw [altRefill.eq_def]
  show (if num ≤ outQ.length then (([] : List DNSRequest), outQ)
    else ([], outQ)) = (([] : List DNSRequest), outQ)
  rw [if_neg hc]

theorem altRefill_cons (e : Enumeration) (num : Nat) (req : DNSRequest)
    (rest outQ : List DNSRequest) (st : AltsState) (hc : ¬ num ≤ outQ.length) :
    altRefill e num (req :: rest) outQ st =
      (if (scopedAlts e st req.Name).length = 0
       then (rest,
         outQ ++ (scopedAlts e st req.Name).map (fun n => altPair n req))
       else altRefill e num rest
         (outQ ++ (scopedAlts e st req.Name).map (fun n => altPair n req))
         st) := by
  rw [altRefill.eq_def]
  show (if num ≤ outQ.length then (req :: rest, outQ) else _) = _
  rw [if_neg hc]

/-- C4 amended: the refill loop stops on a zero-yield expansion step, but an
expansion step yields zero names exactly when the pending-input queue is
exhausted OR the pulled input produces no in-scope variants; accordingly,
when the refill loop terminates with fewer than `n` items buffered, either
the pending queue is empty or the last pulled request yielded zero in-scope
variants (and the rest of the queue is left pending). -/
theorem alt_refill_zero_yield :
    (∀ (e : Enumeration) (r : AlterationsManager),
      (r.generateAlts e).1 = 0 ↔
      (r.inQueue = [] ∨ ∃ req rest, r.inQueue = req :: rest ∧
        scopedAlts e r.altState req.Name = [])) ∧
    (∀ (e : Enumeration) (num : Nat) (inQ outQ : List DNSRequest)
        (st : AltsState),
      (altRefill e num inQ outQ st).2.length < num →
      (altRefill e num inQ outQ st).1 = [] ∨
      ∃ req, scopedAlts e st req.Name = [] ∧
        req :: (altRefill e num inQ outQ st).1 <:+ inQ) := by
  refine ⟨generateAlts_zero_iff, ?_⟩
  intro e num inQ outQ st
  induction inQ generalizing outQ with
  | nil =>
    intro h
    left
    by_cases hc : num ≤ outQ.length
    · rw [altRefill_stop e num [] outQ st hc]
    · rw [altRefill_nil e num outQ st hc]
  | cons req rest ih =>
    intro h
    by_cases hc : num ≤ outQ.length
    · rw [altRefill_stop e num (req :: rest) outQ st hc] at h
      simp only at h
      omega
    · rw [altRefill_cons e num req rest outQ st hc] at h ⊢
      by_cases hz : (scopedAlts e st req.Name).length = 0
      · rw [if_pos hz] at h ⊢
        refine Or.inr ⟨req, List.length_eq_zero.mp hz, ?_⟩
        exact List.suffix_refl _
      · rw [if_neg hz] at h ⊢
        rcases ih _ h with h1 | ⟨req', hs, hsuf⟩
        · exact Or.inl h1
        · exact Or.inr ⟨req', hs, hsuf.trans (List.suffix_cons req rest)⟩

theorem alt_refill_zero_yield_witness :
    (altRefill eAltOff 3 altSt0.inQueue [] altSt0.altState).1 = [] ∨
    ∃ req, scopedAlts eAltOff altSt0.altState req.Name = [] ∧
      req :: (altRefill eAltOff 3 altSt0.inQueue [] altSt0.altState).1 <:+
        altSt0.inQueue :=
  alt_refill_zero_yield.2 eAltOff 3 altSt0.inQueue [] altSt0.altState
    (by decide)

/-- C2 counterexample: a stopped guessing producer is observably different
from a freshly constructed one.  Stop replaces the model but keeps the
`ttLastOutput` checkpoint, so after stopping a producer whose checkpoint was
100 and then feeding 50 in-scope names through InputName, Produce returns
nothing (50 ≤ 100 fails the stale guard), while a fresh instance given the
identical call sequence produces a candidate. -/
theorem stop_not_fresh :
    Option.map Prod.fst
      ((trainTimes eGuess (some reqGuess) (gStale.Stop eGuess) 50).OutputNames
        eGuess 1 5) ≠
    Option.map Prod.fst
      ((trainTimes eGuess (some reqGuess) (NewGuessManager eGuess) 50).OutputNames
        eGuess 1 5) := by
  decide

/-- C2 amended: Stop resets the brute-forcing producer to exactly a freshly
constructed instance.  The alterations producer's Stop clears both queues
but rebuilds the engine with `alts.NewState` alone (the configured
thresholds are not re-applied), so the stopped state equals a fresh one
exactly when the engine's own initial thresholds coincide with the
configured ones.  The guessing producer's Stop replaces the model but keeps
the `ttLastOutput` checkpoint, so the stopped state equals a fresh one
exactly when the checkpoint was 0. -/
theorem stop_vs_fresh :
    (∀ r : BruteManager, r.Stop = NewBruteManager) ∧
    (∀ (e : Enumeration) (r : AlterationsManager),
      r.Stop e = { inQueue := [], outQueue := [],
                   altState := e.altsNewState e.Config.AltWordlist } ∧
      (r.Stop e = NewAlterationsManager e ↔
        ((e.altsNewState e.Config.AltWordlist).MinForWordFlip =
            e.Config.MinForWordFlip ∧
         (e.altsNewState e.Config.AltWordlist).EditDistance =
            e.Config.EditDistance))) ∧
    (∀ (e : Enumeration) (r : GuessManager),
      r.Stop e = { NewGuessManager e with ttLastOutput := r.ttLastOutput } ∧
      (r.Stop e = NewGuessManager e ↔ r.ttLastOutput = 0)) := by
  refine ⟨fun r => rfl, ?_, ?_⟩
  · intro e r
    refine ⟨rfl, ?_⟩
    unfold AlterationsManager.Stop NewAlterationsManager
    cases hn : e.altsNewState e.Config.AltWordlist with
    | mk m0 e0 w0 =>
      simp [AlterationsManager.mk.injEq, AltsState.mk.injEq]
  · intro e r
    refine ⟨rfl, ?_⟩
    unfold GuessManager.Stop NewGuessManager
    constructor
    · intro h
      have := congrArg GuessManager.ttLastOutput h
      simpa using this
    · intro h
      rw [show r.ttLastOutput = 0 from h]

/- Helper lemmas about duplicate-filter provenance. -/

theorem inputNameR_filter_provenance (e : Enumeration) (r : BruteManager)
    (req : Option DNSRequest) :
    (r.inputNameR e req).2.filter =
      (if (r.inputNameR e req).1 = InputResult.enqueued ∨
          (r.inputNameR e req).1 = InputResult.droppedRecords
       then callName e req :: r.filter else r.filter) := by
  unfold BruteManager.inputNameR callName
  cases req with
  | none => simp
  | some q =>
    dsimp only
    split_ifs <;> simp_all

theorem inputNameR_dup_mem (e : Enumeration) (r : BruteManager)
    (req : Option DNSRequest)
    (h : (r.inputNameR e req).1 = InputResult.droppedDuplicate) :
    callName e req ∈ r.filter := by
  unfold BruteManager.inputNameR at h
  unfold callName
  cases req with
  | none => cases h
  | some q =>
    dsimp only at h ⊢
    split_ifs at h <;> first | assumption | cases h

theorem runBruteInputs_dup_provenance (e : Enumeration) :
    ∀ (reqs : List (Option DNSRequest)) (r : BruteManager) (i : Nat),
      (runBruteInputs e r reqs).2.get? i =
        some InputResult.droppedDuplicate →
      (∃ j, j < i ∧ ∃ res, (runBruteInputs e r reqs).2.get? j = some res ∧
        (res = InputResult.enqueued ∨ res = InputResult.droppedRecords) ∧
        ∃ rj ri, reqs.get? j = some rj ∧ reqs.get? i = some ri ∧
          callName e rj = callName e ri) ∨
      (∃ ri, reqs.get? i = some ri ∧ callName e ri ∈ r.filter) := by
  intro reqs
  induction reqs with
  | nil =>
    intro r i h
    cases h
  | cons req rest ih =>
    intro r i h
    cases i with
    | zero =>
      right
      refine ⟨req, rfl, ?_⟩
      have h0 : (r.inputNameR e req).1 = InputResult.droppedDuplicate := by
        simpa [runBruteInputs] using h
      exact inputNameR_dup_mem e r req h0
    | succ i =>
      have htail : (runBruteInputs e (r.inputNameR e req).2 rest).2.get? i =
          some InputResult.droppedDuplicate := by
        simpa [runBruteInputs] using h
      rcases ih (r.inputNameR e req).2 i htail with
        ⟨j, hj, res, hres, hor, rj, ri, hrj, hri, hname⟩ | ⟨ri, hri, hmem⟩
      · left
        refine ⟨j + 1, by omega, res, ?_, hor, rj, ri, ?_, ?_, hname⟩
        · simpa [runBruteInputs] using hres
        · simpa using hrj
        · simpa using hri
      · rw [inputNameR_filter_provenance] at hmem
        split_ifs at hmem with hcase
        · rcases List.mem_cons.mp hmem with heq | hmem2
          · left
            refine ⟨0, by omega, (r.inputNameR e req).1, ?_, hcase, req, ri,
              rfl, by simpa using hri, heq.symm⟩
            simp [runBruteInputs]
          · right
            exact ⟨ri, by simpa using hri, hmem2⟩
        · right
          exact ⟨ri, by simpa using hri, hmem⟩

/-- C6 counterexample: a name whose first submission carries alias (CNAME)
evidence is recorded by the duplicate filter but never enqueued; a second
submission of the same name is then rejected on grounds of the duplicate
filter even though no earlier call added it to the base-request queue.  The
trace below shows the two outcomes and that the queue stays empty. -/
theorem brute_duplicate_without_enqueue :
    (runBruteInputs eDup NewBruteManager [some reqRec, some reqNoRec]).2 =
      [InputResult.droppedRecords, InputResult.droppedDuplicate] ∧
    (runBruteInputs eDup NewBruteManager
      [some reqRec, some reqNoRec]).1.queue = [] := by
  decide

/-- C6 amended: starting from a fresh BruteManager, every InputName call
rejected by the duplicate filter has an earlier call with the same sanitized
name that passed the scope, enabled and duplicate checks — that earlier call
either was enqueued or was dropped by the DNS-evidence check; it need not
have been enqueued. -/
theorem brute_duplicate_provenance (e : Enumeration)
    (reqs : List (Option DNSRequest)) (i : Nat)
    (h : (runBruteInputs e NewBruteManager reqs).2.get? i =
      some InputResult.droppedDuplicate) :
    ∃ j, j < i ∧ ∃ res,
      (runBruteInputs e NewBruteManager reqs).2.get? j = some res ∧
      (res = InputResult.enqueued ∨ res = InputResult.droppedRecords) ∧
      ∃ rj ri, reqs.get? j = some rj ∧ reqs.get? i = some ri ∧
        callName e rj = callName e ri := by
  rcases runBruteInputs_dup_provenance e reqs NewBruteManager i h with
    hl | ⟨ri, _, hmem⟩
  · exact hl
  · cases hmem

theorem brute_duplicate_provenance_witness :
    ∃ j, j < 1 ∧ ∃ res,
      (runBruteInputs eDup NewBruteManager
        [some reqNoRec, some reqNoRec]).2.get? j = some res ∧
      (res = InputResult.enqueued ∨ res = InputResult.droppedRecords) ∧
      ∃ rj ri, ([some reqNoRec, some reqNoRec] :
          List (Option DNSRequest)).get? j = some rj ∧
        ([some reqNoRec, some reqNoRec] :
          List (Option DNSRequest)).get? 1 = some ri ∧
        callName eDup rj = callName eDup ri :=
  brute_duplicate_provenance eDup [some reqNoRec, some reqNoRec] 1 (by decide)

end Amass
